import Mathlib

/-!
# netmon: the userspace aggregation and accounting engine

A shallow embedding of `main.go` (`syncData`, `updateUI`, `parseComm`) and of
`model/type.go` (`ProcessEntity`).

Conventions of the embedding

* `uint64` and `uint32` values are natural numbers; every Go addition on `uint64`
  is followed by `% u64`.  A subtraction is only ever taken under the guard
  `a >= b`, where it cannot wrap.
* A Go string is a byte sequence.  It is embedded as a `String` holding one
  character per byte (`Char.ofNat b`); the literals the program compares with
  are ASCII, so prefix, suffix and equality tests agree with the byte-wise ones.
* A Go map is the list of its entries in the order a `range` loop visits them
  (`List (K × V)`); a map has one entry per key, so well-formed maps have
  duplicate-free keys.  Results that must not depend on the iteration order are
  stated for every permutation.
* `getProcComm` reads `/proc`; it is a parameter `Nat → String` of the tick.
  `time.Now()` is a parameter `now` of the tick.
* `float64(x)` is a parameter `toFloat : Nat → F`; no floating-point arithmetic
  is modelled (the peak computation of `updateUI` and all text formatting are
  left out).
-/

namespace Netmon

/-- The modulus of `uint64` arithmetic. -/
def u64 : Nat := 2 ^ 64

/-! ## Go maps -/

/-- Map lookup `m[k]` (`none` when the key is absent). -/
def mapGet {K V : Type} [DecidableEq K] : List (K × V) → K → Option V
  | [], _ => none
  | (k', v) :: rest, k => if k' = k then some v else mapGet rest k

/-- The keys of a map, in iteration order. -/
def mapKeys {K V : Type} (m : List (K × V)) : List K := m.map Prod.fst

/-- The idiom `if _, ok := m[k]; !ok { m[k] = &init }; x := m[k]; ...mutate x...`:
the entry of `k` is created from `init` when missing, and then updated through
the pointer by `f`. -/
def mapUpsert {K V : Type} [DecidableEq K]
    (m : List (K × V)) (k : K) (init : V) (f : V → V) : List (K × V) :=
  match mapGet m k with
  | some _ => m.map (fun p => if p.1 = k then (p.1, f p.2) else p)
  | none => m ++ [(k, f init)]

/-! ## Data model -/

/-- The struct `model.ProcessEntity`. -/
structure ProcessEntity where
  pid : Nat
  name : String
  isAlive : Bool
  lastSeen : Nat
  txTotal : Nat
  rxTotal : Nat
  txRate : Nat
  rxRate : Nat
  prevTxTotal : Nat
  prevRxTotal : Nat
deriving DecidableEq, Repr

/-- One entry of the kernel table `objs.ProcStats`: the key (`Pid`, `Comm`, a
`[16]int8`) and the value (`TxBytes`, `RxBytes`). -/
structure RawRow where
  pid : Nat
  comm : List Int
  txBytes : Nat
  rxBytes : Nat
deriving DecidableEq, Repr

/-- The local struct `aggStats` of `syncData`. -/
structure AggStats where
  tx : Nat
  rx : Nat
  names : List String
deriving DecidableEq, Repr

/-- The local struct `historyItem` of `updateUI`. -/
structure HistoryItem where
  name : String
  txTotal : Nat
  rxTotal : Nat
deriving DecidableEq, Repr

/-! ## parseComm -/

/-- The conversion `byte(v)` of an `int8`, as the character standing for that byte. -/
def byteChar (v : Int) : Char := Char.ofNat (v % 256).toNat

/-- The loop of `parseComm`: copy bytes until the first zero. -/
def parseCommLoop : List Int → List Char
  | [] => []
  | v :: rest => if v = 0 then [] else byteChar v :: parseCommLoop rest

/-- The function `parseComm`. -/
def parseComm (chars : List Int) : String := String.mk (parseCommLoop chars)

/-! ## syncData -/

/-- The body of the first loop of `syncData` once `s := snapshot[pid]` is bound. -/
def addStats (r : RawRow) (s : AggStats) : AggStats :=
  { tx := (s.tx + r.txBytes) % u64
    rx := (s.rx + r.rxBytes) % u64
    names := if parseComm r.comm ≠ "" then s.names ++ [parseComm r.comm] else s.names }

/-- The zero value `&aggStats{}`. -/
def emptyStats : AggStats := { tx := 0, rx := 0, names := [] }

/-- One iteration of the first loop of `syncData`. -/
def addRow (snapshot : List (Nat × AggStats)) (r : RawRow) : List (Nat × AggStats) :=
  mapUpsert snapshot r.pid emptyStats (addStats r)

/-- The first loop of `syncData`: the per-pid aggregate of one iteration of the
kernel table. -/
def aggregate (rows : List RawRow) : List (Nat × AggStats) :=
  rows.foldl addRow []

/-- The test `strings.HasPrefix(s, p)`. -/
def hasPrefix (s p : String) : Bool := p.data.isPrefixOf s.data

/-- The guard of the name decision: the name is unset or a placeholder. -/
def needsName (name : String) : Bool :=
  name = "" || name = "unknown" || name = "Socket Thread"

/-- The first test in the candidate loop: the candidate does not look like a
thread name. -/
def goodName (n : String) : Bool :=
  n ≠ "" && n ≠ "unknown" && n ≠ "Socket Thread" && !hasPrefix n "DNS Res"

/-- The candidate loop of `syncData`, from the current value of `bestName`. -/
def bestNameLoop (bestName : String) : List String → String
  | [] => bestName
  | n :: rest =>
    if goodName n then n
    else bestNameLoop (if bestName = "unknown" ∧ n ≠ "" then n else bestName) rest

/-- The name decision of `syncData` for one entity. -/
def resolveName (getProcComm : Nat → String) (pid : Nat) (current : String)
    (names : List String) : String :=
  if needsName current then
    if getProcComm pid ≠ "" then getProcComm pid
    else bestNameLoop "unknown" names
  else current

/-- The rate computation of `syncData` for one direction. -/
def rateOf (total prevTotal : Nat) : Nat :=
  if total ≥ prevTotal then total - prevTotal else total

/-- The entity `&model.ProcessEntity{Pid: pid, IsAlive: true, LastSeen: time.Now()}`. -/
def newEntity (pid now : Nat) : ProcessEntity :=
  { pid := pid, name := "", isAlive := true, lastSeen := now
    txTotal := 0, rxTotal := 0, txRate := 0, rxRate := 0
    prevTxTotal := 0, prevRxTotal := 0 }

/-- The body of the second loop of `syncData` once `entity := db[pid]` is bound. -/
def stepEntity (getProcComm : Nat → String) (now pid : Nat) (s : AggStats)
    (entity : ProcessEntity) : ProcessEntity :=
  { pid := entity.pid
    name := resolveName getProcComm pid entity.name s.names
    isAlive := true
    lastSeen := now
    txTotal := s.tx
    rxTotal := s.rx
    txRate := rateOf s.tx entity.prevTxTotal
    rxRate := rateOf s.rx entity.prevRxTotal
    prevTxTotal := s.tx
    prevRxTotal := s.rx }

/-- One iteration of the second loop of `syncData`. -/
def updateEntity (getProcComm : Nat → String) (now : Nat)
    (db : List (Nat × ProcessEntity)) (e : Nat × AggStats) : List (Nat × ProcessEntity) :=
  mapUpsert db e.1 (newEntity e.1 now) (stepEntity getProcComm now e.1 e.2)

/-- The second loop of `syncData`, ranging over the aggregate `snapshot` in the
given iteration order. -/
def syncDataIn (getProcComm : Nat → String) (now : Nat)
    (db : List (Nat × ProcessEntity)) (snapshot : List (Nat × AggStats)) :
    List (Nat × ProcessEntity) :=
  snapshot.foldl (updateEntity getProcComm now) db

/-- The function `syncData`, with the aggregate visited in insertion order. -/
def syncData (getProcComm : Nat → String) (now : Nat)
    (db : List (Nat × ProcessEntity)) (rows : List RawRow) : List (Nat × ProcessEntity) :=
  syncDataIn getProcComm now db (aggregate rows)

/-- The inputs of one tick: the answers of `getProcComm`, the clock, and the
aggregate in the order the second loop visits it. -/
structure Tick where
  getProcComm : Nat → String
  now : Nat
  snapshot : List (Nat × AggStats)

/-- A run of `syncData` over a sequence of ticks. -/
def runTicks (db : List (Nat × ProcessEntity)) (ticks : List Tick) :
    List (Nat × ProcessEntity) :=
  ticks.foldl (fun d t => syncDataIn t.getProcComm t.now d t.snapshot) db

/-! ## updateUI -/

/-- The constant `historySize`. -/
def historySize : Nat := 90

/-- The accumulators of the first loop of `updateUI`. -/
structure Scan where
  activeProcs : List ProcessEntity
  totalTxRate : Nat
  totalRxRate : Nat
  totalHistoryTx : Nat
  totalHistoryRx : Nat
deriving DecidableEq, Repr

/-- The test `p.TxRate > 0 || p.RxRate > 0`. -/
def isActive (p : ProcessEntity) : Bool := decide (p.txRate > 0) || decide (p.rxRate > 0)

/-- One iteration of the first loop of `updateUI`. -/
def scanStep (acc : Scan) (p : ProcessEntity) : Scan :=
  let acc1 : Scan :=
    if isActive p then
      { acc with
        activeProcs := acc.activeProcs ++ [p]
        totalTxRate := (acc.totalTxRate + p.txRate) % u64
        totalRxRate := (acc.totalRxRate + p.rxRate) % u64 }
    else acc
  { acc1 with
    totalHistoryTx := (acc1.totalHistoryTx + p.txTotal) % u64
    totalHistoryRx := (acc1.totalHistoryRx + p.rxTotal) % u64 }

/-- The first loop of `updateUI`, ranging over `db` in its iteration order. -/
def scanDb (db : List (Nat × ProcessEntity)) : Scan :=
  (db.map Prod.snd).foldl scanStep
    { activeProcs := [], totalTxRate := 0, totalRxRate := 0
      totalHistoryTx := 0, totalHistoryRx := 0 }

/-- The slice expression `h[1:]`, which panics on an empty slice. -/
def sliceFrom1 {F : Type} (h : List F) : Option (List F) :=
  if 1 ≤ h.length then some (h.drop 1) else none

/-- The trend step of `updateUI`: drop the oldest sample of both buffers once
`txHistory` holds `historySize` samples, then append the new samples. -/
def historyStep {F : Type} (txHistory rxHistory : List F) (tx rx : F) :
    Option (List F × List F) :=
  if txHistory.length ≥ historySize then
    match sliceFrom1 txHistory, sliceFrom1 rxHistory with
    | some t, some r => some (t ++ [tx], r ++ [rx])
    | _, _ => none
  else some (txHistory ++ [tx], rxHistory ++ [rx])

/-- Insertion of one element into a sorted list, after the elements that are
less than it and before all others. -/
def insertStable {α : Type} (less : α → α → Bool) (x : α) : List α → List α
  | [] => [x]
  | y :: rest => if less y x then y :: insertStable less x rest else x :: y :: rest

/-- The library call `sort.SliceStable(xs, less)`, as a stable insertion sort. -/
def sortSliceStable {α : Type} (less : α → α → Bool) : List α → List α
  | [] => []
  | x :: rest => insertStable less x (sortSliceStable less rest)

/-- The comparison function of the live table. -/
def lessLive (a b : ProcessEntity) : Bool :=
  let rateI := (a.txRate + a.rxRate) % u64
  let rateJ := (b.txRate + b.rxRate) % u64
  if rateI = rateJ then decide (a.pid < b.pid) else decide (rateI > rateJ)

/-- The sorted `activeProcs` of `updateUI`: the rows of the live table. -/
def liveList (db : List (Nat × ProcessEntity)) : List ProcessEntity :=
  sortSliceStable lessLive (scanDb db).activeProcs

/-- The call `strings.TrimSuffix(s, suffix)`. -/
def trimSuffix (s suffix : String) : String :=
  if suffix.data.isSuffixOf s.data then
    String.mk (s.data.take (s.data.length - suffix.data.length))
  else s

/-- The name `cleanName` under which an entity is grouped. -/
def cleanName (p : ProcessEntity) : String := trimSuffix p.name " (dead)"

/-- The update `item.TxTotal += p.TxTotal; item.RxTotal += p.RxTotal`. -/
def addTotals (p : ProcessEntity) (item : HistoryItem) : HistoryItem :=
  { item with
    txTotal := (item.txTotal + p.txTotal) % u64
    rxTotal := (item.rxTotal + p.rxTotal) % u64 }

/-- One iteration of the grouping loop of `updateUI`. -/
def addToHistory (historyMap : List (String × HistoryItem)) (p : ProcessEntity) :
    List (String × HistoryItem) :=
  mapUpsert historyMap (cleanName p)
    { name := cleanName p, txTotal := 0, rxTotal := 0 } (addTotals p)

/-- The map `historyMap` of `updateUI` after the grouping loop. -/
def historyMap (db : List (Nat × ProcessEntity)) : List (String × HistoryItem) :=
  (db.map Prod.snd).foldl addToHistory []

/-- The comparison function of the history table; Go compares strings byte-wise. -/
def lessHistory (a b : HistoryItem) : Bool :=
  let totalI := (a.txTotal + a.rxTotal) % u64
  let totalJ := (b.txTotal + b.rxTotal) % u64
  if totalI = totalJ then decide (a.name.data < b.name.data) else decide (totalI > totalJ)

/-- The sorted `historyList` of `updateUI`: the rows of the history table. -/
def historyList (db : List (Nat × ProcessEntity)) : List HistoryItem :=
  sortSliceStable lessHistory ((historyMap db).map Prod.snd)

/-- What `updateUI` hands to the widgets, and the new trend buffers. -/
structure View (F : Type) where
  live : List ProcessEntity
  totalTxRate : Nat
  totalRxRate : Nat
  history : List HistoryItem
  totalHistoryTx : Nat
  totalHistoryRx : Nat
  txHistory : List F
  rxHistory : List F

/-- The function `updateUI`, from the registry and the current trend buffers. -/
def updateUI {F : Type} (toFloat : Nat → F) (db : List (Nat × ProcessEntity))
    (txHistory rxHistory : List F) : Option (View F) :=
  let scan := scanDb db
  match historyStep txHistory rxHistory (toFloat scan.totalTxRate) (toFloat scan.totalRxRate) with
  | none => none
  | some (tx, rx) =>
    some
      { live := liveList db
        totalTxRate := scan.totalTxRate
        totalRxRate := scan.totalRxRate
        history := historyList db
        totalHistoryTx := scan.totalHistoryTx
        totalHistoryRx := scan.totalHistoryRx
        txHistory := tx
        rxHistory := rx }

/-- The trend buffers after `updateUI` has run once for each registry state of
`dbs`, starting from the given buffers (`none` if some run panics). -/
def runUI {F : Type} (toFloat : Nat → F) :
    List (List (Nat × ProcessEntity)) → List F × List F → Option (List F × List F)
  | [], h => some h
  | db :: rest, h =>
    match updateUI toFloat db h.1 h.2 with
    | none => none
    | some v => runUI toFloat rest (v.txHistory, v.rxHistory)

/-- The 16-byte `Comm` field holding an ASCII name, padded with zero bytes. -/
def commOf (s : String) : List Int :=
  s.data.map (fun c => (c.toNat : Int)) ++ List.replicate (16 - s.data.length) 0

/-! ## Specification-level definitions -/

/-- The exact sum of `TxBytes` over the rows of a pid. -/
def sumTxBytes (rows : List RawRow) (pid : Nat) : Nat :=
  ((rows.filter (fun r => r.pid = pid)).map RawRow.txBytes).sum

/-- The exact sum of `RxBytes` over the rows of a pid. -/
def sumRxBytes (rows : List RawRow) (pid : Nat) : Nat :=
  ((rows.filter (fun r => r.pid = pid)).map RawRow.rxBytes).sum

/-- The candidates the fallback may settle on: non-empty and other than the
initial value `"unknown"` of `bestName`. -/
def usableName (n : String) : Bool := n ≠ "" && n ≠ "unknown"

/-- The key the live table is sorted by: the `uint64` sum `TxRate + RxRate`. -/
def combinedRate (p : ProcessEntity) : Nat := (p.txRate + p.rxRate) % u64

/-- The last `historySize` elements of a list (the whole list when shorter). -/
def lastSamples {F : Type} (l : List F) : List F := l.drop (l.length - historySize)

/-- The exact sum of `TxTotal` over the entities grouped under a name. -/
def sumTxTotal (db : List (Nat × ProcessEntity)) (name : String) : Nat :=
  (((db.map Prod.snd).filter (fun p => cleanName p = name)).map ProcessEntity.txTotal).sum

/-- The exact sum of `RxTotal` over the entities grouped under a name. -/
def sumRxTotal (db : List (Nat × ProcessEntity)) (name : String) : Nat :=
  (((db.map Prod.snd).filter (fun p => cleanName p = name)).map ProcessEntity.rxTotal).sum

/-! ## Lemmas on Go maps -/

section MapLemmas

variable {K V X : Type} [DecidableEq K]

theorem mapGet_nil (q : K) : mapGet ([] : List (K × V)) q = none := rfl

theorem mapGet_cons (p : K × V) (rest : List (K × V)) (q : K) :
    mapGet (p :: rest) q = if p.1 = q then some p.2 else mapGet rest q := by
  obtain ⟨k, v⟩ := p
  rfl

theorem mapGet_none_iff (m : List (K × V)) (k : K) : mapGet m k = none ↔ k ∉ mapKeys m := by
  induction m with
  | nil => simp [mapGet, mapKeys]
  | cons p rest ih =>
    obtain ⟨k', v⟩ := p
    by_cases h : k' = k
    · simp [mapGet, mapKeys, h]
    · have h' : ¬ k = k' := fun e => h e.symm
      simpa [mapGet, mapKeys, h, h'] using ih

theorem mapGet_mem (m : List (K × V)) (k : K) (v : V) (h : mapGet m k = some v) :
    (k, v) ∈ m := by
  induction m with
  | nil => simp [mapGet] at h
  | cons p rest ih =>
    obtain ⟨k', v'⟩ := p
    by_cases hk : k' = k
    · simp [mapGet, hk] at h
      simp [hk, h]
    · simp [mapGet, hk] at h
      exact List.mem_cons_of_mem _ (ih h)

theorem mapGet_of_mem (m : List (K × V)) (k : K) (v : V) (nd : (mapKeys m).Nodup)
    (h : (k, v) ∈ m) : mapGet m k = some v := by
  induction m with
  | nil => simp at h
  | cons p rest ih =>
    obtain ⟨k', v'⟩ := p
    simp only [mapKeys, List.map_cons, List.nodup_cons] at nd
    rcases List.mem_cons.1 h with h | h
    · cases h
      simp [mapGet]
    · have hk : k' ≠ k := by
        intro e
        subst e
        exact nd.1 (List.mem_map_of_mem Prod.fst h)
      simp only [mapGet, hk, if_false]
      exact ih nd.2 h

theorem mapGet_map_update (m : List (K × V)) (k q : K) (f : V → V) :
    mapGet (m.map (fun p => if p.1 = k then (p.1, f p.2) else p)) q
      = if q = k then (mapGet m q).map f else mapGet m q := by
  induction m with
  | nil => simp [mapGet_nil]
  | cons p rest ih =>
    rw [List.map_cons, mapGet_cons, mapGet_cons, ih]
    by_cases hk : p.1 = k <;> by_cases hq : p.1 = q
    · have hqk : q = k := hq.symm.trans hk
      simp [hk, hq, hqk]
    · have h1 : ¬ k = q := fun e => hq (hk.trans e)
      have h2 : ¬ q = k := fun e => h1 e.symm
      simp [hk, h1, h2]
    · have hqk : ¬ q = k := fun e => hk (hq.trans e)
      simp [hk, hq, hqk]
    · simp [hk, hq]

theorem mapGet_append_single (m : List (K × V)) (k q : K) (v : V) :
    mapGet (m ++ [(k, v)]) q
      = match mapGet m q with
        | some x => some x
        | none => if k = q then some v else none := by
  induction m with
  | nil => simp [mapGet_nil, mapGet_cons]
  | cons p rest ih =>
    rw [List.cons_append, mapGet_cons, mapGet_cons, ih]
    by_cases hq : p.1 = q
    · simp [hq]
    · simp [hq]

theorem mapGet_upsert (m : List (K × V)) (k q : K) (init : V) (f : V → V) :
    mapGet (mapUpsert m k init f) q
      = if q = k then some (f ((mapGet m k).getD init)) else mapGet m q := by
  unfold mapUpsert
  cases hk : mapGet m k with
  | some v =>
    simp only [mapGet_map_update]
    by_cases hq : q = k
    · subst hq; simp [hk]
    · simp [hq]
  | none =>
    simp only [mapGet_append_single]
    by_cases hq : q = k
    · subst hq; simp [hk]
    · have : ¬ k = q := fun e => hq e.symm
      simp only [hq, this, if_false]
      cases mapGet m q <;> rfl

theorem mapKeys_upsert (m : List (K × V)) (k : K) (init : V) (f : V → V) :
    mapKeys (mapUpsert m k init f)
      = if k ∈ mapKeys m then mapKeys m else mapKeys m ++ [k] := by
  unfold mapUpsert
  cases hk : mapGet m k with
  | some v =>
    have hin : k ∈ mapKeys m := by
      by_contra hn
      rw [(mapGet_none_iff m k).2 hn] at hk
      cases hk
    rw [if_pos hin]
    simp only [mapKeys, List.map_map]
    apply List.map_congr_left
    intro p _
    by_cases hp : p.1 = k <;> simp [hp]
  | none =>
    have hin : k ∉ mapKeys m := (mapGet_none_iff m k).1 hk
    rw [if_neg hin]
    simp [mapKeys]

theorem mem_mapKeys_upsert (m : List (K × V)) (k q : K) (init : V) (f : V → V) :
    q ∈ mapKeys (mapUpsert m k init f) ↔ q ∈ mapKeys m ∨ q = k := by
  rw [mapKeys_upsert]
  by_cases hk : k ∈ mapKeys m
  · simp only [hk, if_true]
    constructor
    · exact Or.inl
    · rintro (h | h)
      · exact h
      · rw [h]; exact hk
  · simp [hk]

theorem nodup_mapKeys_upsert (m : List (K × V)) (k : K) (init : V) (f : V → V)
    (nd : (mapKeys m).Nodup) : (mapKeys (mapUpsert m k init f)).Nodup := by
  rw [mapKeys_upsert]
  by_cases hk : k ∈ mapKeys m
  · simpa [hk] using nd
  · simp only [hk, if_false]
    exact List.Nodup.append nd (List.nodup_singleton k) (by simpa using hk)

theorem mem_mapKeys_foldl_upsert (key : X → K) (init : X → V) (f : X → V → V) (q : K)
    (items : List X) (m : List (K × V)) :
    q ∈ mapKeys (items.foldl (fun m x => mapUpsert m (key x) (init x) (f x)) m)
      ↔ q ∈ mapKeys m ∨ q ∈ items.map key := by
  induction items generalizing m with
  | nil => simp
  | cons x rest ih =>
    simp only [List.foldl_cons, List.map_cons, List.mem_cons]
    rw [ih, mem_mapKeys_upsert]
    tauto

theorem nodup_mapKeys_foldl_upsert (key : X → K) (init : X → V) (f : X → V → V)
    (items : List X) (m : List (K × V)) (nd : (mapKeys m).Nodup) :
    (mapKeys (items.foldl (fun m x => mapUpsert m (key x) (init x) (f x)) m)).Nodup := by
  induction items generalizing m with
  | nil => exact nd
  | cons x rest ih =>
    simp only [List.foldl_cons]
    exact ih _ (nodup_mapKeys_upsert m (key x) (init x) (f x) nd)

end MapLemmas

/-! ## Lemmas on the aggregation loop -/

theorem aggregate_eq (rows : List RawRow) :
    aggregate rows
      = rows.foldl (fun m r => mapUpsert m r.pid emptyStats (addStats r)) [] := rfl

theorem nodup_aggregate (rows : List RawRow) : (mapKeys (aggregate rows)).Nodup := by
  rw [aggregate_eq]
  exact nodup_mapKeys_foldl_upsert _ _ _ rows [] (by simp [mapKeys])

theorem mem_mapKeys_aggregate (rows : List RawRow) (pid : Nat) :
    pid ∈ mapKeys (aggregate rows) ↔ pid ∈ rows.map RawRow.pid := by
  rw [aggregate_eq, mem_mapKeys_foldl_upsert]
  simp [mapKeys]

theorem mapGet_aggregate_snoc (rows : List RawRow) (r : RawRow) (pid : Nat) :
    mapGet (aggregate (rows ++ [r])) pid
      = if pid = r.pid then some (addStats r ((mapGet (aggregate rows) r.pid).getD emptyStats))
        else mapGet (aggregate rows) pid := by
  have h : aggregate (rows ++ [r]) = mapUpsert (aggregate rows) r.pid emptyStats (addStats r) := by
    simp [aggregate, addRow, List.foldl_append, emptyStats]
  rw [h, mapGet_upsert]

theorem aggregate_tx (rows : List RawRow) (pid : Nat) :
    ((mapGet (aggregate rows) pid).getD emptyStats).tx = sumTxBytes rows pid % u64 := by
  induction rows using List.reverseRecOn with
  | nil => simp [aggregate, mapGet, emptyStats, sumTxBytes]
  | append_singleton rows r ih =>
    rw [mapGet_aggregate_snoc]
    by_cases h : pid = r.pid
    · subst h
      simp only [if_true, Option.getD_some, addStats, ih]
      simp [sumTxBytes, List.filter_append, Nat.add_mod]
    · have h' : ¬ r.pid = pid := fun e => h e.symm
      simp only [h, if_false, ih]
      simp [sumTxBytes, List.filter_append, h']

theorem aggregate_rx (rows : List RawRow) (pid : Nat) :
    ((mapGet (aggregate rows) pid).getD emptyStats).rx = sumRxBytes rows pid % u64 := by
  induction rows using List.reverseRecOn with
  | nil => simp [aggregate, mapGet, emptyStats, sumRxBytes]
  | append_singleton rows r ih =>
    rw [mapGet_aggregate_snoc]
    by_cases h : pid = r.pid
    · subst h
      simp only [if_true, Option.getD_some, addStats, ih]
      simp [sumRxBytes, List.filter_append, Nat.add_mod]
    · have h' : ¬ r.pid = pid := fun e => h e.symm
      simp only [h, if_false, ih]
      simp [sumRxBytes, List.filter_append, h']

theorem sumTxBytes_perm (rows rows' : List RawRow) (pid : Nat) (h : rows'.Perm rows) :
    sumTxBytes rows' pid = sumTxBytes rows pid :=
  ((h.filter _).map _).sum_eq

theorem sumRxBytes_perm (rows rows' : List RawRow) (pid : Nat) (h : rows'.Perm rows) :
    sumRxBytes rows' pid = sumRxBytes rows pid :=
  ((h.filter _).map _).sum_eq

/-- Every permutation of the aggregate holds, for a pid of the snapshot, one
entry, whose counters are the sums modulo `2^64`. -/
theorem mem_perm_aggregate (rows : List RawRow) (ord : List (Nat × AggStats)) (pid : Nat)
    (hord : ord.Perm (aggregate rows)) (hpid : pid ∈ rows.map RawRow.pid) :
    ∃ s, (pid, s) ∈ ord ∧ s.tx = sumTxBytes rows pid % u64
      ∧ s.rx = sumRxBytes rows pid % u64 := by
  have hk : pid ∈ mapKeys (aggregate rows) := (mem_mapKeys_aggregate rows pid).2 hpid
  cases hg : mapGet (aggregate rows) pid with
  | none => exact absurd hk ((mapGet_none_iff _ _).1 hg)
  | some s =>
    refine ⟨s, hord.mem_iff.2 (mapGet_mem _ _ _ hg), ?_, ?_⟩
    · have := aggregate_tx rows pid
      rwa [hg] at this
    · have := aggregate_rx rows pid
      rwa [hg] at this

theorem nodup_perm_aggregate (rows : List RawRow) (ord : List (Nat × AggStats))
    (hord : ord.Perm (aggregate rows)) : (mapKeys ord).Nodup :=
  (hord.map Prod.fst).nodup_iff.2 (nodup_aggregate rows)

theorem mem_mapKeys_perm_aggregate (rows : List RawRow) (ord : List (Nat × AggStats))
    (hord : ord.Perm (aggregate rows)) (pid : Nat) :
    pid ∈ mapKeys ord ↔ pid ∈ rows.map RawRow.pid := by
  rw [← mem_mapKeys_aggregate]
  exact (hord.map Prod.fst).mem_iff

/-! ## Lemmas on the registry update loop -/

theorem syncDataIn_eq (g : Nat → String) (now : Nat) (db : List (Nat × ProcessEntity))
    (snap : List (Nat × AggStats)) :
    syncDataIn g now db snap
      = snap.foldl (fun m e => mapUpsert m e.1 (newEntity e.1 now) (stepEntity g now e.1 e.2))
          db := rfl

theorem syncDataIn_cons (g : Nat → String) (now : Nat) (db : List (Nat × ProcessEntity))
    (e : Nat × AggStats) (snap : List (Nat × AggStats)) :
    syncDataIn g now db (e :: snap) = syncDataIn g now (updateEntity g now db e) snap := rfl

/-- The entry of a pid after the tick: the updated entity when the pid is in
the aggregate, the old entry otherwise. -/
theorem mapGet_syncDataIn (g : Nat → String) (now : Nat) (snap : List (Nat × AggStats))
    (nd : (mapKeys snap).Nodup) (db : List (Nat × ProcessEntity)) (q : Nat) :
    mapGet (syncDataIn g now db snap) q
      = match mapGet snap q with
        | some s => some (stepEntity g now q s ((mapGet db q).getD (newEntity q now)))
        | none => mapGet db q := by
  induction snap generalizing db with
  | nil => rfl
  | cons e rest ih =>
    simp only [mapKeys, List.map_cons, List.nodup_cons] at nd
    rw [syncDataIn_cons, ih nd.2, mapGet_cons]
    by_cases hq : e.1 = q
    · subst hq
      have hn : mapGet rest e.1 = none := (mapGet_none_iff _ _).2 nd.1
      simp [hn, updateEntity, mapGet_upsert]
    · have hq' : ¬ q = e.1 := fun h => hq h.symm
      simp [hq, hq', updateEntity, mapGet_upsert]

theorem mapGet_syncDataIn_of_mem (g : Nat → String) (now : Nat) (snap : List (Nat × AggStats))
    (nd : (mapKeys snap).Nodup) (db : List (Nat × ProcessEntity)) (pid : Nat) (s : AggStats)
    (hs : (pid, s) ∈ snap) :
    mapGet (syncDataIn g now db snap) pid
      = some (stepEntity g now pid s ((mapGet db pid).getD (newEntity pid now))) := by
  rw [mapGet_syncDataIn g now snap nd db pid, mapGet_of_mem snap pid s nd hs]

theorem mem_mapKeys_syncDataIn (g : Nat → String) (now : Nat) (snap : List (Nat × AggStats))
    (db : List (Nat × ProcessEntity)) (q : Nat) :
    q ∈ mapKeys (syncDataIn g now db snap) ↔ q ∈ mapKeys db ∨ q ∈ mapKeys snap := by
  rw [syncDataIn_eq, mem_mapKeys_foldl_upsert]
  rfl

theorem nodup_mapKeys_syncDataIn (g : Nat → String) (now : Nat) (snap : List (Nat × AggStats))
    (db : List (Nat × ProcessEntity)) (nd : (mapKeys db).Nodup) :
    (mapKeys (syncDataIn g now db snap)).Nodup := by
  rw [syncDataIn_eq]
  exact nodup_mapKeys_foldl_upsert _ _ _ snap db nd

theorem rateOf_self (t : Nat) : rateOf t t = 0 := by
  simp [rateOf]

/-! ## Lemmas on the name decision -/

theorem bestNameLoop_eq (names : List String) (best : String) :
    bestNameLoop best names
      = match names.find? goodName with
        | some n => n
        | none => if best = "unknown" then (names.find? usableName).getD "unknown" else best := by
  induction names generalizing best with
  | nil => by_cases hb : best = "unknown" <;> simp [bestNameLoop, hb]
  | cons n rest ih =>
    by_cases hg : goodName n = true
    · simp [bestNameLoop, hg]
    · have hg' : goodName n = false := by simpa using hg
      rw [bestNameLoop, if_neg hg, ih, List.find?_cons, hg']
      cases hf : rest.find? goodName with
      | some m => rfl
      | none =>
        by_cases hb : best = "unknown"
        · by_cases hn : n = ""
          · simp [hb, hn, usableName]
          · by_cases hu : n = "unknown"
            · simp [hb, hu, usableName]
            · simp [hb, hn, hu, usableName]
        · simp [hb]

theorem resolveName_of_trusted (g : Nat → String) (pid : Nat) (current : String)
    (names : List String) (h : needsName current = false) :
    resolveName g pid current names = current := by
  simp [resolveName, h]

theorem stepEntity_name_of_trusted (g : Nat → String) (now pid : Nat) (s : AggStats)
    (e : ProcessEntity) (h : needsName e.name = false) :
    (stepEntity g now pid s e).name = e.name :=
  resolveName_of_trusted g pid e.name s.names h

/-- A name that is not a placeholder survives a tick, whatever its snapshot. -/
theorem name_kept_syncDataIn (g : Nat → String) (now : Nat) (snap : List (Nat × AggStats))
    (db : List (Nat × ProcessEntity)) (q : Nat) (e : ProcessEntity)
    (he : mapGet db q = some e) (hn : needsName e.name = false) :
    ∃ e', mapGet (syncDataIn g now db snap) q = some e' ∧ e'.name = e.name := by
  induction snap generalizing db e with
  | nil => exact ⟨e, he, rfl⟩
  | cons x rest ih =>
    rw [syncDataIn_cons]
    by_cases hq : q = x.1
    · have hstep : mapGet (updateEntity g now db x) q
          = some (stepEntity g now x.1 x.2 e) := by
        rw [updateEntity, mapGet_upsert, if_pos hq, ← hq, he]
        rfl
      have hname := stepEntity_name_of_trusted g now x.1 x.2 e hn
      obtain ⟨e', h1, h2⟩ := ih (updateEntity g now db x) _ hstep (by rw [hname]; exact hn)
      exact ⟨e', h1, h2.trans hname⟩
    · have hstep : mapGet (updateEntity g now db x) q = some e := by
        rw [updateEntity, mapGet_upsert, if_neg hq, he]
      exact ih (updateEntity g now db x) e hstep hn

/-- A name that is not a placeholder survives every sequence of ticks. -/
theorem name_kept_runTicks (ticks : List Tick) (db : List (Nat × ProcessEntity)) (q : Nat)
    (e : ProcessEntity) (he : mapGet db q = some e) (hn : needsName e.name = false) :
    ∃ e', mapGet (runTicks db ticks) q = some e' ∧ e'.name = e.name := by
  induction ticks generalizing db e with
  | nil => exact ⟨e, he, rfl⟩
  | cons t rest ih =>
    obtain ⟨e1, h1, hn1⟩ := name_kept_syncDataIn t.getProcComm t.now t.snapshot db q e he hn
    obtain ⟨e2, h2, hn2⟩ := ih (syncDataIn t.getProcComm t.now db t.snapshot) e1 h1
      (by rw [hn1]; exact hn)
    exact ⟨e2, h2, hn2.trans hn1⟩

/-! ## Lemmas on parseComm -/

theorem parseCommLoop_eq (chars : List Int) :
    parseCommLoop chars = (chars.takeWhile (fun v => decide (v ≠ 0))).map byteChar := by
  induction chars with
  | nil => rfl
  | cons v rest ih =>
    by_cases hv : v = 0
    · simp [parseCommLoop, hv]
    · simp [parseCommLoop, hv, List.takeWhile_cons, ih]

theorem parseCommLoop_length (chars : List Int) (h : ∀ v ∈ chars, v ≠ 0) :
    (parseCommLoop chars).length = chars.length := by
  induction chars with
  | nil => rfl
  | cons v rest ih =>
    have hv : v ≠ 0 := h v (List.mem_cons_self _ _)
    simp [parseCommLoop, hv, ih (fun w hw => h w (List.mem_cons_of_mem _ hw))]

theorem parseComm_eq_empty_iff (chars : List Int) :
    parseComm chars = "" ↔ chars = [] ∨ chars.head? = some 0 := by
  cases chars with
  | nil => simp [parseComm, parseCommLoop]
  | cons v rest =>
    by_cases hv : v = 0
    · simp [parseComm, parseCommLoop, hv]
    · simp [parseComm, parseCommLoop, hv, String.ext_iff]

/-! ## Lemmas on the trend buffers -/

theorem lastSamples_length {F : Type} (l : List F) :
    (lastSamples l).length = min l.length historySize := by
  simp only [lastSamples, List.length_drop]
  omega

theorem lastSamples_snoc_of_lt {F : Type} (l : List F) (x : F) (h : l.length < historySize) :
    lastSamples (l ++ [x]) = lastSamples l ++ [x] := by
  have h1 : l.length - historySize = 0 := by omega
  have h2 : (l ++ [x]).length - historySize = 0 := by
    simp only [List.length_append, List.length_singleton]
    omega
  simp only [lastSamples, h1, h2, List.drop_zero]

theorem lastSamples_snoc_of_ge {F : Type} (l : List F) (x : F) (h : historySize ≤ l.length) :
    lastSamples (l ++ [x]) = (lastSamples l).drop 1 ++ [x] := by
  have h2 : (l ++ [x]).length - historySize = l.length - historySize + 1 := by
    simp only [List.length_append, List.length_singleton]
    omega
  have h3 : l.length - historySize + 1 ≤ l.length := by
    have : 0 < historySize := by decide
    omega
  simp only [lastSamples, h2, List.drop_drop]
  rw [List.drop_append_of_le_length h3]

/-- One trend step keeps both buffers equal to the last `historySize` samples. -/
theorem historyStep_lastSamples {F : Type} (tp rp : List F) (t r : F)
    (hlen : tp.length = rp.length) :
    historyStep (lastSamples tp) (lastSamples rp) t r
      = some (lastSamples (tp ++ [t]), lastSamples (rp ++ [r])) := by
  by_cases h : historySize ≤ tp.length
  · have h' : historySize ≤ rp.length := hlen ▸ h
    have hpos : 0 < historySize := by decide
    have l1 : (lastSamples tp).length = historySize := by
      rw [lastSamples_length]; omega
    have l2 : (lastSamples rp).length = historySize := by
      rw [lastSamples_length]; omega
    have c : (lastSamples tp).length ≥ historySize := by omega
    have s1 : sliceFrom1 (lastSamples tp) = some ((lastSamples tp).drop 1) := by
      simp only [sliceFrom1]
      rw [if_pos (by omega)]
    have s2 : sliceFrom1 (lastSamples rp) = some ((lastSamples rp).drop 1) := by
      simp only [sliceFrom1]
      rw [if_pos (by omega)]
    simp only [historyStep]
    rw [if_pos c, s1, s2, lastSamples_snoc_of_ge tp t h, lastSamples_snoc_of_ge rp r h']
  · have h1 : tp.length < historySize := by omega
    have h2 : rp.length < historySize := by omega
    have c : ¬ (lastSamples tp).length ≥ historySize := by
      rw [lastSamples_length]; omega
    simp only [historyStep]
    rw [if_neg c, lastSamples_snoc_of_lt tp t h1, lastSamples_snoc_of_lt rp r h2]

/-- The trend buffers after a run of `updateUI`: the run never panics and the
buffers hold the last `historySize` samples. -/
theorem runUI_lastSamples {F : Type} (toFloat : Nat → F)
    (dbs : List (List (Nat × ProcessEntity))) (tp rp : List F) (hlen : tp.length = rp.length) :
    runUI toFloat dbs (lastSamples tp, lastSamples rp)
      = some
          (lastSamples (tp ++ dbs.map (fun db => toFloat (scanDb db).totalTxRate)),
           lastSamples (rp ++ dbs.map (fun db => toFloat (scanDb db).totalRxRate))) := by
  induction dbs generalizing tp rp with
  | nil => simp [runUI]
  | cons db rest ih =>
    have hstep := historyStep_lastSamples tp rp (toFloat (scanDb db).totalTxRate)
      (toFloat (scanDb db).totalRxRate) hlen
    have hlen' : (tp ++ [toFloat (scanDb db).totalTxRate]).length
        = (rp ++ [toFloat (scanDb db).totalRxRate]).length := by
      simp [hlen]
    simp only [runUI, updateUI, hstep]
    rw [ih _ _ hlen']
    simp

/-! ## Lemmas on the stable sort -/

theorem insertStable_perm {α : Type} (less : α → α → Bool) (x : α) (l : List α) :
    (insertStable less x l).Perm (x :: l) := by
  induction l with
  | nil => exact List.Perm.refl _
  | cons y rest ih =>
    by_cases h : less y x = true
    · simp only [insertStable, h, if_true]
      exact (List.Perm.cons y ih).trans (List.Perm.swap x y rest)
    · simp only [insertStable, h]
      exact List.Perm.refl _

theorem sortSliceStable_perm {α : Type} (less : α → α → Bool) (l : List α) :
    (sortSliceStable less l).Perm l := by
  induction l with
  | nil => exact List.Perm.refl _
  | cons x rest ih =>
    simp only [sortSliceStable]
    exact (insertStable_perm less x _).trans (List.Perm.cons x ih)

theorem insertStable_sorted {α : Type} (less : α → α → Bool)
    (asymm : ∀ a b, less a b = true → less b a = false)
    (trans : ∀ a b c, less b a = false → less c b = false → less c a = false)
    (x : α) (l : List α) (hl : l.Pairwise (fun a b => less b a = false)) :
    (insertStable less x l).Pairwise (fun a b => less b a = false) := by
  induction l with
  | nil => simp [insertStable]
  | cons y rest ih =>
    rw [List.pairwise_cons] at hl
    by_cases h : less y x = true
    · simp only [insertStable, h, if_true]
      rw [List.pairwise_cons]
      refine ⟨?_, ih hl.2⟩
      intro z hz
      rcases List.mem_cons.1 ((insertStable_perm less x rest).mem_iff.1 hz) with hz | hz
      · rw [hz]
        exact asymm y x h
      · exact hl.1 z hz
    · have h' : less y x = false := by simpa using h
      simp only [insertStable, h', Bool.false_eq_true, if_false]
      rw [List.pairwise_cons]
      refine ⟨?_, List.pairwise_cons.2 hl⟩
      intro z hz
      rcases List.mem_cons.1 hz with hz | hz
      · rw [hz]
        exact h'
      · exact trans x y z h' (hl.1 z hz)

theorem sortSliceStable_sorted {α : Type} (less : α → α → Bool)
    (asymm : ∀ a b, less a b = true → less b a = false)
    (trans : ∀ a b c, less b a = false → less c b = false → less c a = false)
    (l : List α) : (sortSliceStable less l).Pairwise (fun a b => less b a = false) := by
  induction l with
  | nil => simp [sortSliceStable]
  | cons x rest ih =>
    simp only [sortSliceStable]
    exact insertStable_sorted less asymm trans x _ ih

/-! ## Lemmas on the live table -/

theorem lessLive_iff (a b : ProcessEntity) :
    lessLive a b = true
      ↔ combinedRate a > combinedRate b
        ∨ (combinedRate a = combinedRate b ∧ a.pid < b.pid) := by
  simp only [lessLive, combinedRate]
  by_cases h : (a.txRate + a.rxRate) % u64 = (b.txRate + b.rxRate) % u64
  · simp [h]
  · simp only [h, if_false, decide_eq_true_eq, false_and, or_false]

theorem lessLive_false_iff (a b : ProcessEntity) :
    lessLive a b = false
      ↔ combinedRate a < combinedRate b
        ∨ (combinedRate a = combinedRate b ∧ b.pid ≤ a.pid) := by
  rw [← Bool.not_eq_true, lessLive_iff]
  omega

theorem lessLive_asymm (a b : ProcessEntity) (h : lessLive a b = true) :
    lessLive b a = false := by
  rw [lessLive_iff] at h
  rw [lessLive_false_iff]
  omega

theorem lessLive_trans (a b c : ProcessEntity) (h1 : lessLive b a = false)
    (h2 : lessLive c b = false) : lessLive c a = false := by
  rw [lessLive_false_iff] at *
  omega

theorem lessLive_of_ne (a b : ProcessEntity) (h : lessLive b a = false)
    (hne : a.pid ≠ b.pid) : lessLive a b = true := by
  rw [lessLive_false_iff] at h
  rw [lessLive_iff]
  omega

theorem scanStep_activeProcs (l : List ProcessEntity) (acc : Scan) :
    (l.foldl scanStep acc).activeProcs = acc.activeProcs ++ l.filter isActive := by
  induction l generalizing acc with
  | nil => simp
  | cons p rest ih =>
    rw [List.foldl_cons, ih]
    by_cases h : isActive p = true
    · simp [scanStep, h, List.filter_cons]
    · simp [scanStep, h, List.filter_cons]

theorem scanDb_activeProcs (db : List (Nat × ProcessEntity)) :
    (scanDb db).activeProcs = (db.map Prod.snd).filter isActive := by
  simp [scanDb, scanStep_activeProcs]

theorem liveList_perm (db : List (Nat × ProcessEntity)) :
    (liveList db).Perm ((db.map Prod.snd).filter isActive) := by
  rw [liveList, scanDb_activeProcs]
  exact sortSliceStable_perm _ _

/-- With pairwise distinct pids the live table is strictly sorted. -/
theorem liveList_strict (db : List (Nat × ProcessEntity))
    (hpids : ((db.map Prod.snd).map ProcessEntity.pid).Nodup) :
    (liveList db).Pairwise (fun a b => lessLive a b = true) := by
  have hs : (liveList db).Pairwise (fun a b => lessLive b a = false) :=
    sortSliceStable_sorted lessLive lessLive_asymm lessLive_trans _
  have hnd : ((liveList db).map ProcessEntity.pid).Nodup := by
    have hsub : (((db.map Prod.snd).filter isActive).map ProcessEntity.pid).Nodup :=
      hpids.sublist ((List.filter_sublist _).map _)
    exact (((liveList_perm db).map ProcessEntity.pid).nodup_iff).2 hsub
  have hne : (liveList db).Pairwise (fun a b => a.pid ≠ b.pid) :=
    List.pairwise_map.1 hnd
  exact (hs.and hne).imp (fun h => lessLive_of_ne _ _ h.1 h.2)

theorem liveList_eq_of_perm (db db' : List (Nat × ProcessEntity))
    (hpids : ((db.map Prod.snd).map ProcessEntity.pid).Nodup) (hperm : db'.Perm db) :
    liveList db' = liveList db := by
  have hpids' : ((db'.map Prod.snd).map ProcessEntity.pid).Nodup :=
    (((hperm.map Prod.snd).map ProcessEntity.pid).nodup_iff).2 hpids
  have hp : (liveList db').Perm (liveList db) :=
    ((liveList_perm db').trans (((hperm.map Prod.snd).filter isActive))).trans
      (liveList_perm db).symm
  have anti : IsAntisymm ProcessEntity (fun a b => lessLive a b = true) :=
    ⟨fun a b h1 h2 => by rw [lessLive_asymm a b h1] at h2; cases h2⟩
  exact @List.eq_of_perm_of_sorted _ _ anti _ _ hp (liveList_strict db' hpids')
    (liveList_strict db hpids)

/-! ## Lemmas on the history table -/

theorem historyMap_snoc (db : List (Nat × ProcessEntity)) (x : Nat × ProcessEntity) :
    historyMap (db ++ [x])
      = mapUpsert (historyMap db) (cleanName x.2)
          { name := cleanName x.2, txTotal := 0, rxTotal := 0 } (addTotals x.2) := by
  simp [historyMap, addToHistory, List.foldl_append]

theorem nodup_historyMap (db : List (Nat × ProcessEntity)) :
    (mapKeys (historyMap db)).Nodup :=
  nodup_mapKeys_foldl_upsert cleanName
    (fun p => ({ name := cleanName p, txTotal := 0, rxTotal := 0 } : HistoryItem)) addTotals
    (db.map Prod.snd) [] (by simp [mapKeys])

theorem mem_mapKeys_historyMap (db : List (Nat × ProcessEntity)) (name : String) :
    name ∈ mapKeys (historyMap db) ↔ name ∈ (db.map Prod.snd).map cleanName := by
  have h := mem_mapKeys_foldl_upsert cleanName
    (fun p => ({ name := cleanName p, txTotal := 0, rxTotal := 0 } : HistoryItem)) addTotals
    name (db.map Prod.snd) []
  simpa [mapKeys] using h

/-- The entry of a name in `historyMap`: its totals are the sums modulo `2^64`. -/
theorem historyMap_entry (db : List (Nat × ProcessEntity)) (name : String) :
    (mapGet (historyMap db) name).getD { name := name, txTotal := 0, rxTotal := 0 }
      = { name := name
          txTotal := sumTxTotal db name % u64
          rxTotal := sumRxTotal db name % u64 } := by
  induction db using List.reverseRecOn with
  | nil => simp [historyMap, mapGet, sumTxTotal, sumRxTotal]
  | append_singleton db x ih =>
    rw [historyMap_snoc, mapGet_upsert]
    by_cases h : name = cleanName x.2
    · subst h
      rw [if_pos rfl, Option.getD_some, ih]
      simp [addTotals, sumTxTotal, sumRxTotal, List.filter_append, Nat.add_mod]
    · have h' : ¬ cleanName x.2 = name := fun e => h e.symm
      rw [if_neg h, ih]
      simp [sumTxTotal, sumRxTotal, List.filter_append, h']

theorem historyMap_mem (db : List (Nat × ProcessEntity)) (name : String) (item : HistoryItem)
    (h : (name, item) ∈ historyMap db) :
    item = { name := name
             txTotal := sumTxTotal db name % u64
             rxTotal := sumRxTotal db name % u64 } := by
  have hg := mapGet_of_mem _ _ _ (nodup_historyMap db) h
  have he := historyMap_entry db name
  rwa [hg] at he

theorem historyMap_names (db : List (Nat × ProcessEntity)) :
    ((historyMap db).map Prod.snd).map HistoryItem.name = mapKeys (historyMap db) := by
  rw [List.map_map, mapKeys]
  apply List.map_congr_left
  intro e he
  have := historyMap_mem db e.1 e.2 he
  simp only [Function.comp]
  rw [this]

theorem historyList_perm (db : List (Nat × ProcessEntity)) :
    (historyList db).Perm ((historyMap db).map Prod.snd) :=
  sortSliceStable_perm _ _

theorem map_update_of_not_mem (m : List (String × HistoryItem)) (k : String)
    (f : HistoryItem → HistoryItem) (h : k ∉ mapKeys m) :
    m.map (fun e => if e.1 = k then (e.1, f e.2) else e) = m := by
  induction m with
  | nil => rfl
  | cons e rest ih =>
    simp only [mapKeys, List.map_cons, List.mem_cons, not_or] at h
    have he : ¬ e.1 = k := fun x => h.1 x.symm
    rw [List.map_cons, if_neg he, ih h.2]

theorem sum_map_update_tx (p : ProcessEntity) (m : List (String × HistoryItem)) (k : String)
    (nd : (mapKeys m).Nodup) (hk : k ∈ mapKeys m) :
    ((m.map (fun e => if e.1 = k then (e.1, addTotals p e.2) else e)).map
        (fun e => e.2.txTotal)).sum % u64
      = ((m.map (fun e => e.2.txTotal)).sum + p.txTotal) % u64 := by
  induction m with
  | nil => simp [mapKeys] at hk
  | cons e rest ih =>
    simp only [mapKeys, List.map_cons, List.nodup_cons, List.mem_cons] at nd hk
    by_cases he : e.1 = k
    · have hnot : k ∉ mapKeys rest := he ▸ nd.1
      rw [List.map_cons, if_pos he, map_update_of_not_mem rest k _ hnot]
      simp only [List.map_cons, List.sum_cons, addTotals, u64]
      omega
    · have hin : k ∈ mapKeys rest := by
        rcases hk with hk | hk
        · exact absurd hk.symm he
        · exact hk
      have := ih nd.2 hin
      rw [List.map_cons, if_neg he]
      simp only [List.map_cons, List.sum_cons, u64] at this ⊢
      omega

theorem sum_map_update_rx (p : ProcessEntity) (m : List (String × HistoryItem)) (k : String)
    (nd : (mapKeys m).Nodup) (hk : k ∈ mapKeys m) :
    ((m.map (fun e => if e.1 = k then (e.1, addTotals p e.2) else e)).map
        (fun e => e.2.rxTotal)).sum % u64
      = ((m.map (fun e => e.2.rxTotal)).sum + p.rxTotal) % u64 := by
  induction m with
  | nil => simp [mapKeys] at hk
  | cons e rest ih =>
    simp only [mapKeys, List.map_cons, List.nodup_cons, List.mem_cons] at nd hk
    by_cases he : e.1 = k
    · have hnot : k ∉ mapKeys rest := he ▸ nd.1
      rw [List.map_cons, if_pos he, map_update_of_not_mem rest k _ hnot]
      simp only [List.map_cons, List.sum_cons, addTotals, u64]
      omega
    · have hin : k ∈ mapKeys rest := by
        rcases hk with hk | hk
        · exact absurd hk.symm he
        · exact hk
      have := ih nd.2 hin
      rw [List.map_cons, if_neg he]
      simp only [List.map_cons, List.sum_cons, u64] at this ⊢
      omega

/-- One grouping step adds the entity's totals to the sum of the rows, modulo `2^64`. -/
theorem sum_upsert_totals (p : ProcessEntity) (m : List (String × HistoryItem))
    (nd : (mapKeys m).Nodup) :
    ((mapUpsert m (cleanName p) { name := cleanName p, txTotal := 0, rxTotal := 0 }
        (addTotals p)).map (fun e => e.2.txTotal)).sum % u64
      = ((m.map (fun e => e.2.txTotal)).sum + p.txTotal) % u64
    ∧ ((mapUpsert m (cleanName p) { name := cleanName p, txTotal := 0, rxTotal := 0 }
        (addTotals p)).map (fun e => e.2.rxTotal)).sum % u64
      = ((m.map (fun e => e.2.rxTotal)).sum + p.rxTotal) % u64 := by
  unfold mapUpsert
  cases hg : mapGet m (cleanName p) with
  | none =>
    simp only [List.map_append, List.sum_append, List.map_cons, List.map_nil, List.sum_cons,
      List.sum_nil, addTotals, u64]
    constructor <;> omega
  | some v =>
    have hk : cleanName p ∈ mapKeys m := by
      by_contra hn
      rw [(mapGet_none_iff m _).2 hn] at hg
      cases hg
    exact ⟨sum_map_update_tx p m _ nd hk, sum_map_update_rx p m _ nd hk⟩

theorem historyMap_sums (db : List (Nat × ProcessEntity)) :
    ((historyMap db).map (fun e => e.2.txTotal)).sum % u64
      = ((db.map Prod.snd).map ProcessEntity.txTotal).sum % u64
    ∧ ((historyMap db).map (fun e => e.2.rxTotal)).sum % u64
      = ((db.map Prod.snd).map ProcessEntity.rxTotal).sum % u64 := by
  induction db using List.reverseRecOn with
  | nil => simp [historyMap]
  | append_singleton db x ih =>
    have h := sum_upsert_totals x.2 (historyMap db) (nodup_historyMap db)
    rw [historyMap_snoc, h.1, h.2]
    simp only [List.map_append, List.sum_append, List.map_cons, List.map_nil, List.sum_cons,
      List.sum_nil, u64] at ih ⊢
    omega

theorem scanStep_totalHistory (acc : Scan) (p : ProcessEntity) :
    (scanStep acc p).totalHistoryTx = (acc.totalHistoryTx + p.txTotal) % u64
    ∧ (scanStep acc p).totalHistoryRx = (acc.totalHistoryRx + p.rxTotal) % u64 := by
  by_cases h : isActive p = true <;> simp [scanStep, h]

theorem scanDb_totalHistory (db : List (Nat × ProcessEntity)) :
    (scanDb db).totalHistoryTx = ((db.map Prod.snd).map ProcessEntity.txTotal).sum % u64
    ∧ (scanDb db).totalHistoryRx = ((db.map Prod.snd).map ProcessEntity.rxTotal).sum % u64 := by
  induction db using List.reverseRecOn with
  | nil => simp [scanDb]
  | append_singleton db x ih =>
    have hs : scanDb (db ++ [x]) = scanStep (scanDb db) x.2 := by
      simp [scanDb, List.foldl_append]
    rw [hs, (scanStep_totalHistory _ _).1, (scanStep_totalHistory _ _).2, ih.1, ih.2]
    simp only [List.map_append, List.sum_append, List.map_cons, List.map_nil, List.sum_cons,
      List.sum_nil, u64]
    omega

/-! ## The tick update: rates, totals, frame -/

/-- C1. Rate law of `syncData`, for each direction: for a pid of the tick's
aggregate with aggregated total `s` and previous total `p` (that of the entity
before the tick, `0` for a new entity), the rate after the tick is `s - p` when
`s >= p` and `s` when `s < p`.  The second part is the two-tick example: totals
`1000/0` then `1500/200` for pid 100 give rates `500/200` and totals `1500/200`. -/
theorem syncData_rate_law (g : Nat → String) (now : Nat) (db : List (Nat × ProcessEntity))
    (rows : List RawRow) (ord : List (Nat × AggStats)) (pid : Nat) (s : AggStats)
    (hord : ord.Perm (aggregate rows)) (hs : (pid, s) ∈ ord) :
    (∃ e, mapGet (syncDataIn g now db ord) pid = some e
      ∧ (s.tx ≥ ((mapGet db pid).getD (newEntity pid now)).prevTxTotal →
          e.txRate = s.tx - ((mapGet db pid).getD (newEntity pid now)).prevTxTotal)
      ∧ (s.tx < ((mapGet db pid).getD (newEntity pid now)).prevTxTotal → e.txRate = s.tx)
      ∧ (s.rx ≥ ((mapGet db pid).getD (newEntity pid now)).prevRxTotal →
          e.rxRate = s.rx - ((mapGet db pid).getD (newEntity pid now)).prevRxTotal)
      ∧ (s.rx < ((mapGet db pid).getD (newEntity pid now)).prevRxTotal → e.rxRate = s.rx))
    ∧ (mapGet
          (syncData (fun _ => "") 2 (syncData (fun _ => "") 1 [] [⟨100, commOf "A", 1000, 0⟩])
            [⟨100, commOf "A", 1500, 200⟩]) 100).map
        (fun e => (e.txRate, e.rxRate, e.txTotal, e.rxTotal)) = some (500, 200, 1500, 200) := by
  have nd := nodup_perm_aggregate rows ord hord
  refine ⟨⟨_, mapGet_syncDataIn_of_mem g now ord nd db pid s hs, ?_, ?_, ?_, ?_⟩, by decide⟩
  · intro h
    simp [stepEntity, rateOf, h]
  · intro h
    simp [stepEntity, rateOf, Nat.not_le.2 h]
  · intro h
    simp [stepEntity, rateOf, h]
  · intro h
    simp [stepEntity, rateOf, Nat.not_le.2 h]

/-- Witness of C1: a reset of the transmit counter (`1000` then `300`) next to
a growing receive counter (`10` then `25`). -/
theorem syncData_rate_law_witness :
    ∃ e, mapGet
        (syncDataIn (fun _ => "") 2 [(100, { newEntity 100 1 with prevTxTotal := 1000, prevRxTotal := 10 })]
          (aggregate [⟨100, commOf "A", 300, 25⟩])) 100 = some e
      ∧ e.txRate = 300 ∧ e.rxRate = 15 := by
  obtain ⟨⟨e, he, _, h2, h3, _⟩, _⟩ :=
    syncData_rate_law (fun _ => "") 2
      [(100, { newEntity 100 1 with prevTxTotal := 1000, prevRxTotal := 10 })]
      [⟨100, commOf "A", 300, 25⟩] (aggregate [⟨100, commOf "A", 300, 25⟩]) 100
      ⟨300, 25, ["A"]⟩ (List.Perm.refl _) (by decide)
  exact ⟨e, he, h2 (by decide), h3 (by decide)⟩

/-- C2, as stated, fails: two rows of pid 7 carrying `2^63` transmitted bytes
each give `txTotal = 0`, while the exact sum is `2^64`. -/
theorem syncData_totals_not_exact :
    (mapGet (syncData (fun _ => "") 1 []
        [⟨7, commOf "a", 2 ^ 63, 0⟩, ⟨7, commOf "b", 2 ^ 63, 0⟩]) 7).map ProcessEntity.txTotal
      = some 0
    ∧ sumTxBytes [⟨7, commOf "a", 2 ^ 63, 0⟩, ⟨7, commOf "b", 2 ^ 63, 0⟩] 7 = 2 ^ 64 := by
  decide

/-- C2, amended. Thread-merge: for every pid of the snapshot, whatever the order
in which the rows and the aggregate are iterated, the entity's `txTotal` and
`rxTotal` after the tick are the sums of the rows' counters modulo `2^64`; they
are the exact sums whenever those are below `2^64`. -/
theorem syncData_totals_mod (g : Nat → String) (now : Nat) (db : List (Nat × ProcessEntity))
    (rows rows' : List RawRow) (ord : List (Nat × AggStats)) (pid : Nat)
    (hrows : rows'.Perm rows) (hord : ord.Perm (aggregate rows'))
    (hpid : pid ∈ rows.map RawRow.pid) :
    ∃ e, mapGet (syncDataIn g now db ord) pid = some e
      ∧ e.txTotal = sumTxBytes rows pid % u64
      ∧ e.rxTotal = sumRxBytes rows pid % u64
      ∧ (sumTxBytes rows pid < u64 → e.txTotal = sumTxBytes rows pid)
      ∧ (sumRxBytes rows pid < u64 → e.rxTotal = sumRxBytes rows pid) := by
  have nd := nodup_perm_aggregate rows' ord hord
  have hpid' : pid ∈ rows'.map RawRow.pid := ((hrows.map RawRow.pid).mem_iff).2 hpid
  obtain ⟨s, hs, htx, hrx⟩ := mem_perm_aggregate rows' ord pid hord hpid'
  rw [sumTxBytes_perm rows rows' pid hrows] at htx
  rw [sumRxBytes_perm rows rows' pid hrows] at hrx
  refine ⟨_, mapGet_syncDataIn_of_mem g now ord nd db pid s hs, ?_, ?_, ?_, ?_⟩
  · simpa [stepEntity] using htx
  · simpa [stepEntity] using hrx
  · intro h
    simpa [stepEntity, Nat.mod_eq_of_lt h] using htx
  · intro h
    simpa [stepEntity, Nat.mod_eq_of_lt h] using hrx

/-- Witness of C2, amended: three rows of two pids, iterated in another order. -/
theorem syncData_totals_mod_witness :
    ∃ e, mapGet (syncDataIn (fun _ => "") 1 []
          (aggregate [⟨8, commOf "c", 5, 6⟩, ⟨7, commOf "b", 30, 4⟩, ⟨7, commOf "a", 12, 3⟩])) 7
        = some e
      ∧ e.txTotal = 42 ∧ e.rxTotal = 7 := by
  obtain ⟨e, he, _, _, h3, h4⟩ :=
    syncData_totals_mod (fun _ => "") 1 []
      [⟨7, commOf "a", 12, 3⟩, ⟨7, commOf "b", 30, 4⟩, ⟨8, commOf "c", 5, 6⟩]
      [⟨8, commOf "c", 5, 6⟩, ⟨7, commOf "b", 30, 4⟩, ⟨7, commOf "a", 12, 3⟩]
      (aggregate [⟨8, commOf "c", 5, 6⟩, ⟨7, commOf "b", 30, 4⟩, ⟨7, commOf "a", 12, 3⟩]) 7
      (by decide) (List.Perm.refl _) (by decide)
  exact ⟨e, he, h3 (by decide), h4 (by decide)⟩

/-- C8, as stated, fails: entity 7, created by a tick with rates `5/3`, is
absent from the snapshot fed twice afterwards and keeps its rates. -/
theorem syncData_twice_keeps_absent_rates :
    (mapGet
        (syncData (fun _ => "") 3
          (syncData (fun _ => "") 2
            (syncData (fun _ => "") 1 [] [⟨7, commOf "a", 5, 3⟩])
            [⟨8, commOf "b", 1, 1⟩])
          [⟨8, commOf "b", 1, 1⟩]) 7).map
      (fun e => (e.txRate, e.rxRate)) = some (5, 3) := by
  decide

/-- C8, amended. Idempotent aggregation: running the tick update on a snapshot
and then again on the same snapshot (in any iteration orders) leaves
`txRate = 0` and `rxRate = 0` on every entity whose pid occurs in the snapshot. -/
theorem syncData_twice_zero_rates (g1 g2 : Nat → String) (now1 now2 : Nat)
    (db : List (Nat × ProcessEntity)) (rows rows2 : List RawRow)
    (ord1 ord2 : List (Nat × AggStats)) (pid : Nat)
    (h1 : ord1.Perm (aggregate rows)) (hrows : rows2.Perm rows)
    (h2 : ord2.Perm (aggregate rows2)) (hpid : pid ∈ rows.map RawRow.pid) :
    ∃ e, mapGet (syncDataIn g2 now2 (syncDataIn g1 now1 db ord1) ord2) pid = some e
      ∧ e.txRate = 0 ∧ e.rxRate = 0 := by
  have nd1 := nodup_perm_aggregate rows ord1 h1
  have nd2 := nodup_perm_aggregate rows2 ord2 h2
  have hpid2 : pid ∈ rows2.map RawRow.pid := ((hrows.map RawRow.pid).mem_iff).2 hpid
  obtain ⟨s1, hs1, htx1, hrx1⟩ := mem_perm_aggregate rows ord1 pid h1 hpid
  obtain ⟨s2, hs2, htx2, hrx2⟩ := mem_perm_aggregate rows2 ord2 pid h2 hpid2
  rw [sumTxBytes_perm rows rows2 pid hrows, ← htx1] at htx2
  rw [sumRxBytes_perm rows rows2 pid hrows, ← hrx1] at hrx2
  refine ⟨_, mapGet_syncDataIn_of_mem g2 now2 ord2 nd2 _ pid s2 hs2, ?_, ?_⟩
  · rw [mapGet_syncDataIn_of_mem g1 now1 ord1 nd1 db pid s1 hs1]
    simp [stepEntity, htx2, rateOf_self]
  · rw [mapGet_syncDataIn_of_mem g1 now1 ord1 nd1 db pid s1 hs1]
    simp [stepEntity, hrx2, rateOf_self]

/-- Witness of C8, amended: a registry holding pid 7 with pending rates, fed
twice a snapshot of pids 7 and 8. -/
theorem syncData_twice_zero_rates_witness :
    ∃ e, mapGet
        (syncDataIn (fun _ => "") 3
          (syncDataIn (fun _ => "") 2 [(7, { newEntity 7 1 with txRate := 5, prevTxTotal := 5 })]
            (aggregate [⟨7, commOf "a", 9, 3⟩, ⟨8, commOf "b", 1, 1⟩]))
          (aggregate [⟨7, commOf "a", 9, 3⟩, ⟨8, commOf "b", 1, 1⟩])) 7 = some e
      ∧ e.txRate = 0 ∧ e.rxRate = 0 :=
  syncData_twice_zero_rates (fun _ => "") (fun _ => "") 2 3
    [(7, { newEntity 7 1 with txRate := 5, prevTxTotal := 5 })]
    [⟨7, commOf "a", 9, 3⟩, ⟨8, commOf "b", 1, 1⟩] [⟨7, commOf "a", 9, 3⟩, ⟨8, commOf "b", 1, 1⟩]
    _ _ 7 (List.Perm.refl _) (List.Perm.refl _) (List.Perm.refl _) (by decide)

/-- C9. Frame of `syncData`: an entity whose pid does not occur in the snapshot
is, after the tick, still the entry of its pid with every field unchanged; no
entry is removed; the keys after the tick are the old keys together with the
pids of the snapshot, each once. -/
theorem syncData_frame (g : Nat → String) (now : Nat) (db : List (Nat × ProcessEntity))
    (rows : List RawRow) (ord : List (Nat × AggStats))
    (hdb : (mapKeys db).Nodup) (hord : ord.Perm (aggregate rows)) :
    (∀ pid e, (pid, e) ∈ db → pid ∉ rows.map RawRow.pid →
        (pid, e) ∈ syncDataIn g now db ord ∧ mapGet (syncDataIn g now db ord) pid = some e)
    ∧ (∀ pid, pid ∈ mapKeys db → pid ∈ mapKeys (syncDataIn g now db ord))
    ∧ (∀ pid, pid ∈ mapKeys (syncDataIn g now db ord)
        ↔ pid ∈ mapKeys db ∨ pid ∈ rows.map RawRow.pid)
    ∧ (mapKeys (syncDataIn g now db ord)).Nodup := by
  have nd := nodup_perm_aggregate rows ord hord
  refine ⟨?_, ?_, ?_, nodup_mapKeys_syncDataIn g now ord db hdb⟩
  · intro pid e he hpid
    have hn : mapGet ord pid = none :=
      (mapGet_none_iff _ _).2 (fun h => hpid ((mem_mapKeys_perm_aggregate rows ord hord pid).1 h))
    have hget : mapGet (syncDataIn g now db ord) pid = some e := by
      rw [mapGet_syncDataIn g now ord nd db pid, hn]
      exact mapGet_of_mem db pid e hdb he
    exact ⟨mapGet_mem _ _ _ hget, hget⟩
  · intro pid h
    exact (mem_mapKeys_syncDataIn g now ord db pid).2 (Or.inl h)
  · intro pid
    rw [mem_mapKeys_syncDataIn, mem_mapKeys_perm_aggregate rows ord hord]

/-- Witness of C9: pid 7 is absent from a snapshot of pid 8 and stays as it was. -/
theorem syncData_frame_witness :
    mapGet (syncDataIn (fun _ => "") 2
        [(7, { newEntity 7 1 with name := "curl", txRate := 5, txTotal := 5, prevTxTotal := 5 })]
        (aggregate [⟨8, commOf "b", 1, 1⟩])) 7
      = some { newEntity 7 1 with name := "curl", txRate := 5, txTotal := 5, prevTxTotal := 5 } :=
  ((syncData_frame (fun _ => "") 2
      [(7, { newEntity 7 1 with name := "curl", txRate := 5, txTotal := 5, prevTxTotal := 5 })]
      [⟨8, commOf "b", 1, 1⟩] (aggregate [⟨8, commOf "b", 1, 1⟩])
      (by decide) (List.Perm.refl _)).1 7 _ (by decide) (by decide)).2

/-! ## Names -/

/-- C3, as stated, fails: `getProcComm` answers `"Socket Thread"` for the new
pid 7, so the name is set from a non-empty answer of the oracle; at the next
tick the oracle answers nothing and the name is replaced by the candidate
`"Web Content"`. -/
theorem oracle_placeholder_name_replaced :
    (mapGet (syncData (fun _ => "Socket Thread") 1 [] [⟨7, commOf "Socket Thread", 10, 0⟩]) 7).map
        ProcessEntity.name = some "Socket Thread"
    ∧ (mapGet
        (syncData (fun _ => "") 2
          (syncData (fun _ => "Socket Thread") 1 [] [⟨7, commOf "Socket Thread", 10, 0⟩])
          [⟨7, commOf "Web Content", 20, 0⟩]) 7).map
        ProcessEntity.name = some "Web Content" := by
  decide

/-- C3, amended. Name trust: when a tick sets the name of an entity (its name
was unset or a placeholder, or the entity is new) from an answer of
`getProcComm` that is non-empty and is neither `"unknown"` nor
`"Socket Thread"`, the entity bears that name after the tick and after every
sequence of later ticks, whatever their oracles, clocks and snapshots. -/
theorem oracle_name_kept (g : Nat → String) (now : Nat) (db : List (Nat × ProcessEntity))
    (rows : List RawRow) (ord : List (Nat × AggStats)) (pid : Nat) (later : List Tick)
    (hord : ord.Perm (aggregate rows)) (hpid : pid ∈ rows.map RawRow.pid)
    (hcur : needsName ((mapGet db pid).getD (newEntity pid now)).name = true)
    (h1 : g pid ≠ "") (h2 : g pid ≠ "unknown") (h3 : g pid ≠ "Socket Thread") :
    ∃ e, mapGet (runTicks (syncDataIn g now db ord) later) pid = some e
      ∧ e.name = g pid := by
  have nd := nodup_perm_aggregate rows ord hord
  obtain ⟨s, hs, _, _⟩ := mem_perm_aggregate rows ord pid hord hpid
  have hget := mapGet_syncDataIn_of_mem g now ord nd db pid s hs
  have hname : (stepEntity g now pid s ((mapGet db pid).getD (newEntity pid now))).name
      = g pid := by
    simp [stepEntity, resolveName, hcur, h1]
  have htrust : needsName
      (stepEntity g now pid s ((mapGet db pid).getD (newEntity pid now))).name = false := by
    rw [hname]
    simp [needsName, h1, h2, h3]
  obtain ⟨e, he, hn⟩ := name_kept_runTicks later _ pid _ hget htrust
  exact ⟨e, he, hn.trans hname⟩

/-- Witness of C3, amended: pid 7 is named `"firefox"` by the oracle, and two
later ticks with a silent oracle and other candidates keep that name. -/
theorem oracle_name_kept_witness :
    ∃ e, mapGet
        (runTicks
          (syncDataIn (fun _ => "firefox") 1 [] (aggregate [⟨7, commOf "Socket Thread", 10, 0⟩]))
          [⟨fun _ => "", 2, aggregate [⟨7, commOf "Web Content", 20, 0⟩]⟩,
           ⟨fun _ => "curl", 3, aggregate [⟨7, commOf "DNS Res~2", 30, 0⟩]⟩]) 7 = some e
      ∧ e.name = "firefox" :=
  oracle_name_kept (fun _ => "firefox") 1 [] [⟨7, commOf "Socket Thread", 10, 0⟩] _ 7
    [⟨fun _ => "", 2, aggregate [⟨7, commOf "Web Content", 20, 0⟩]⟩,
     ⟨fun _ => "curl", 3, aggregate [⟨7, commOf "DNS Res~2", 30, 0⟩]⟩]
    (List.Perm.refl _) (by decide) (by decide) (by decide) (by decide) (by decide)

/-- C4, as stated, fails: with a silent oracle and the candidates
`["unknown", "Socket Thread"]` no candidate qualifies and the very first
non-empty candidate is `"unknown"`, yet the resolved name is `"Socket Thread"`;
with the candidates `["unknown"]` the resolved name is `"unknown"` although the
list holds a non-empty candidate. -/
theorem resolveName_not_first_nonempty :
    ["unknown", "Socket Thread"].find? goodName = none
    ∧ ["unknown", "Socket Thread"].find? (fun n => decide (n ≠ "")) = some "unknown"
    ∧ resolveName (fun _ => "") 7 "" ["unknown", "Socket Thread"] = "Socket Thread"
    ∧ resolveName (fun _ => "") 7 "" ["unknown"] = "unknown" := by
  decide

/-- C4, amended. Candidate fallback: for a current name that is unset or a
placeholder and an oracle that answers nothing, the resolved name is the first
candidate that is non-empty, differs from `"unknown"` and `"Socket Thread"` and
does not start with `"DNS Res"`; if there is none, it is the first candidate
that is non-empty and differs from `"unknown"`; it is `"unknown"` only if every
candidate is empty or `"unknown"`.  The last two parts are the examples:
candidates `["Socket Thread", "DNS Res~2"]` with a silent oracle resolve to
`"Socket Thread"`, and the oracle's `"chrome"` wins over the candidates. -/
theorem resolveName_fallback (g : Nat → String) (pid : Nat) (current : String)
    (names : List String)
    (hcur : current = "" ∨ current = "unknown" ∨ current = "Socket Thread")
    (hsilent : g pid = "") :
    (resolveName g pid current names
      = match names.find? goodName with
        | some n => n
        | none => (names.find? usableName).getD "unknown")
    ∧ (resolveName g pid current names = "unknown" → ∀ n ∈ names, n = "" ∨ n = "unknown")
    ∧ resolveName (fun _ => "") 7 "" ["Socket Thread", "DNS Res~2"] = "Socket Thread"
    ∧ resolveName (fun _ => "chrome") 7 "" ["Socket Thread", "chrome"] = "chrome" := by
  have hneeds : needsName current = true := by
    rcases hcur with h | h | h <;> simp [needsName, h]
  have heq : resolveName g pid current names
      = match names.find? goodName with
        | some n => n
        | none => (names.find? usableName).getD "unknown" := by
    simp [resolveName, hneeds, hsilent, bestNameLoop_eq]
  refine ⟨heq, ?_, by decide, by decide⟩
  rw [heq]
  intro hres n hn
  cases hf : names.find? goodName with
  | some m =>
    rw [hf] at hres
    have hm : goodName m = true := List.find?_some hf
    have hres' : m = "unknown" := hres
    simp [goodName, hres'] at hm
  | none =>
    rw [hf] at hres
    cases hu : names.find? usableName with
    | some m =>
      rw [hu] at hres
      have hm : usableName m = true := List.find?_some hu
      have hres' : m = "unknown" := hres
      simp [usableName, hres'] at hm
    | none =>
      have := List.find?_eq_none.1 hu n hn
      simp [usableName] at this
      by_cases h0 : n = ""
      · exact Or.inl h0
      · exact Or.inr (this h0)

/-- Witness of C4, amended: a placeholder name, a silent oracle, and candidates
of which the third is the first good one. -/
theorem resolveName_fallback_witness :
    resolveName (fun _ => "") 7 "Socket Thread" ["", "DNS Res~1", "nginx", "curl"] = "nginx" :=
  (resolveName_fallback (fun _ => "") 7 "Socket Thread" ["", "DNS Res~1", "nginx", "curl"]
    (by decide) (by decide)).1.trans (by decide)

/-- C10, as stated, fails: a `Comm` field of sixteen bytes `'a'` holds no zero
byte; `parseComm` yields the sixteen-byte name, not `""`, and the row adds it
to the candidates of its pid. -/
theorem parseComm_unterminated_not_empty :
    parseComm (List.replicate 16 97) = "aaaaaaaaaaaaaaaa"
    ∧ mapGet (aggregate [⟨7, List.replicate 16 97, 10, 20⟩]) 7
        = some { tx := 10, rx := 20, names := ["aaaaaaaaaaaaaaaa"] } := by
  decide

/-- C10, amended. For every row with a 16-byte `Comm` field: `parseComm` yields
the bytes before the first zero byte, all sixteen when there is none (a
non-terminated field is a sixteen-byte name); the name is empty exactly when
the first byte is zero; the row adds the name to the candidates of its pid
exactly when the name is not empty; and in every case the row's byte counts are
added (in `uint64`) to the aggregate of its pid. -/
theorem parseComm_row (snapshot : List (Nat × AggStats)) (r : RawRow)
    (h16 : r.comm.length = 16) :
    parseComm r.comm = String.mk ((r.comm.takeWhile (fun v => decide (v ≠ 0))).map byteChar)
    ∧ ((∀ v ∈ r.comm, v ≠ 0) → (parseComm r.comm).length = 16)
    ∧ (parseComm r.comm = "" ↔ r.comm.head? = some 0)
    ∧ mapGet (addRow snapshot r) r.pid
        = some
          { tx := (((mapGet snapshot r.pid).getD emptyStats).tx + r.txBytes) % u64
            rx := (((mapGet snapshot r.pid).getD emptyStats).rx + r.rxBytes) % u64
            names :=
              if parseComm r.comm = "" then ((mapGet snapshot r.pid).getD emptyStats).names
              else ((mapGet snapshot r.pid).getD emptyStats).names ++ [parseComm r.comm] } := by
  refine ⟨?_, ?_, ?_, ?_⟩
  · rw [parseComm, parseCommLoop_eq]
  · intro h
    rw [parseComm, String.length_mk, parseCommLoop_length r.comm h, h16]
  · rw [parseComm_eq_empty_iff]
    constructor
    · rintro (h | h)
      · rw [h] at h16
        simp at h16
      · exact h
    · exact Or.inr
  · rw [addRow, mapGet_upsert, if_pos rfl]
    by_cases hn : parseComm r.comm = "" <;> simp [addStats, hn]

/-- Witness of C10, amended: a non-terminated field with a byte above 127. -/
theorem parseComm_row_witness :
    (parseComm (List.replicate 15 97 ++ [-1])).length = 16 :=
  (parseComm_row [] ⟨7, List.replicate 15 97 ++ [-1], 10, 20⟩ (by decide)).2.1 (by decide)

/-! ## The views -/

/-- C5. History bounding: from empty trend buffers, `n` runs of `updateUI` never
panic and leave both `txHistory` and `rxHistory` with `min n 90` elements, hence
exactly `historySize = 90` once `n > 90`; the buffers are the last `90` samples
`float64(totalTxRate)`, `float64(totalRxRate)` in chronological order: for
`n > 90`, element `i` is the sample of tick `n - 90 + i + 1` (index
`n - 90 + i` from zero). -/
theorem updateUI_history_bound {F : Type} (toFloat : Nat → F)
    (dbs : List (List (Nat × ProcessEntity))) :
    historySize = 90
    ∧ ∃ tx rx, runUI toFloat dbs ([], []) = some (tx, rx)
      ∧ tx.length = min dbs.length historySize
      ∧ rx.length = min dbs.length historySize
      ∧ (dbs.length > historySize → tx.length = historySize ∧ rx.length = historySize)
      ∧ tx = (dbs.map (fun db => toFloat (scanDb db).totalTxRate)).drop
              (dbs.length - historySize)
      ∧ rx = (dbs.map (fun db => toFloat (scanDb db).totalRxRate)).drop
              (dbs.length - historySize)
      ∧ (∀ i, i < historySize →
          tx[i]? = (dbs[dbs.length - historySize + i]?).map
                    (fun db => toFloat (scanDb db).totalTxRate)
          ∧ rx[i]? = (dbs[dbs.length - historySize + i]?).map
                    (fun db => toFloat (scanDb db).totalRxRate)) := by
  have hrun := runUI_lastSamples toFloat dbs [] [] rfl
  have e1 : (lastSamples ([] : List F)) = [] := rfl
  rw [e1] at hrun
  simp only [List.nil_append] at hrun
  refine ⟨rfl, _, _, hrun, ?_, ?_, ?_, ?_, ?_, ?_⟩
  · rw [lastSamples_length, List.length_map]
  · rw [lastSamples_length, List.length_map]
  · intro h
    rw [lastSamples_length, lastSamples_length, List.length_map, List.length_map]
    omega
  · rw [lastSamples, List.length_map]
  · rw [lastSamples, List.length_map]
  · intro i _
    simp only [lastSamples, List.length_map, List.getElem?_drop, List.getElem?_map]
    exact ⟨trivial, trivial⟩

/-- C6, as stated, fails: pid 1 has rates `2^63 + 2^63`, whose `uint64` sum is
`0`, and pid 2 has rates `1 + 0`; the live table lists pid 2 before pid 1,
against the descending order of the sums `2^64` and `1`. -/
theorem liveList_not_by_exact_sum :
    (liveList (syncData (fun _ => "") 1 []
        [⟨1, commOf "a", 2 ^ 63, 2 ^ 63⟩, ⟨2, commOf "b", 1, 0⟩])).map
      (fun p => (p.pid, p.txRate + p.rxRate)) = [(2, 1), (1, 2 ^ 64)] := by
  decide

/-- C6, amended. Live ranking: for a registry whose entities have pairwise
distinct pids, in any iteration order, the live table is a permutation of
exactly the entities with `txRate > 0` or `rxRate > 0`, ordered by the `uint64`
sum `(txRate + rxRate) mod 2^64` descending with ties in ascending pid order,
and it is the same for every iteration order; when no sum `txRate + rxRate`
reaches `2^64` it is ordered by `txRate + rxRate` itself. -/
theorem liveList_ranking (db db' : List (Nat × ProcessEntity))
    (hpids : ((db.map Prod.snd).map ProcessEntity.pid).Nodup) (hperm : db'.Perm db) :
    (liveList db').Perm ((db.map Prod.snd).filter isActive)
    ∧ (∀ p, p ∈ liveList db' ↔ p ∈ db.map Prod.snd ∧ (p.txRate > 0 ∨ p.rxRate > 0))
    ∧ (liveList db').Pairwise
        (fun a b => combinedRate a > combinedRate b
          ∨ (combinedRate a = combinedRate b ∧ a.pid < b.pid))
    ∧ liveList db' = liveList db
    ∧ ((∀ p ∈ db.map Prod.snd, p.txRate + p.rxRate < u64) →
        (liveList db').Pairwise
          (fun a b => a.txRate + a.rxRate > b.txRate + b.rxRate
            ∨ (a.txRate + a.rxRate = b.txRate + b.rxRate ∧ a.pid < b.pid))) := by
  have heq := liveList_eq_of_perm db db' hpids hperm
  have hp := liveList_perm db
  have hs : (liveList db).Pairwise
      (fun a b => combinedRate a > combinedRate b
        ∨ (combinedRate a = combinedRate b ∧ a.pid < b.pid)) :=
    (liveList_strict db hpids).imp (fun h => (lessLive_iff _ _).1 h)
  rw [heq]
  refine ⟨hp, ?_, hs, rfl, ?_⟩
  · intro p
    rw [hp.mem_iff, List.mem_filter]
    simp [isActive]
  · intro hsmall
    refine hs.imp_of_mem ?_
    intro a b ha hb h
    have ha' := hsmall a (List.mem_filter.1 (hp.mem_iff.1 ha)).1
    have hb' := hsmall b (List.mem_filter.1 (hp.mem_iff.1 hb)).1
    simp only [combinedRate, Nat.mod_eq_of_lt ha', Nat.mod_eq_of_lt hb'] at h
    exact h

/-- Witness of C6, amended: a tie between pids 3 and 5, an idle pid 4, and the
registry visited in another order. -/
theorem liveList_ranking_witness :
    (liveList
        [(5, { newEntity 5 1 with txRate := 10 }), (4, newEntity 4 1),
         (9, { newEntity 9 1 with rxRate := 70 }), (3, { newEntity 3 1 with rxRate := 10 })]).map
      ProcessEntity.pid = [9, 3, 5] :=
  ((liveList_ranking
      [(3, { newEntity 3 1 with rxRate := 10 }), (4, newEntity 4 1),
       (5, { newEntity 5 1 with txRate := 10 }), (9, { newEntity 9 1 with rxRate := 70 })]
      [(5, { newEntity 5 1 with txRate := 10 }), (4, newEntity 4 1),
       (9, { newEntity 9 1 with rxRate := 70 }), (3, { newEntity 3 1 with rxRate := 10 })]
      (by decide) (by decide)).2.2.2.1 ▸ (by decide))

/-- C7, as stated, fails: pids 1 and 2 both bear the name `"a"` and a `txTotal`
of `2^63`; the history table has the single row `"a"` with `txTotal = 0`, and
the reported grand total is `0`, while the sum over the two entities is `2^64`. -/
theorem historyList_not_exact_sum :
    historyList (syncData (fun _ => "") 1 []
        [⟨1, commOf "a", 2 ^ 63, 0⟩, ⟨2, commOf "a", 2 ^ 63, 0⟩])
      = [{ name := "a", txTotal := 0, rxTotal := 0 }]
    ∧ (scanDb (syncData (fun _ => "") 1 []
        [⟨1, commOf "a", 2 ^ 63, 0⟩, ⟨2, commOf "a", 2 ^ 63, 0⟩])).totalHistoryTx = 0
    ∧ sumTxTotal (syncData (fun _ => "") 1 []
        [⟨1, commOf "a", 2 ^ 63, 0⟩, ⟨2, commOf "a", 2 ^ 63, 0⟩]) "a" = 2 ^ 64 := by
  decide

/-- C7, amended. Historical grouping: the history table has exactly one row per
distinct normalized name (the name with one trailing `" (dead)"` removed) of
the registry's entities, so every entity, active or not, is counted in exactly
one row; each row's `txTotal` and `rxTotal` are the sums of `txTotal` and
`rxTotal` over the entities of that normalized name, modulo `2^64`; the
reported grand totals are the sums of the rows' totals, modulo `2^64`. -/
theorem historyList_groups (db : List (Nat × ProcessEntity)) :
    ((historyList db).map HistoryItem.name).Nodup
    ∧ (∀ name, name ∈ (historyList db).map HistoryItem.name
        ↔ ∃ p ∈ db.map Prod.snd, trimSuffix p.name " (dead)" = name)
    ∧ (∀ p ∈ db.map Prod.snd, ∃ row ∈ historyList db, row.name = cleanName p
        ∧ ∀ row' ∈ historyList db, row'.name = cleanName p → row' = row)
    ∧ (∀ row ∈ historyList db,
        row.txTotal = sumTxTotal db row.name % u64
        ∧ row.rxTotal = sumRxTotal db row.name % u64)
    ∧ (scanDb db).totalHistoryTx = ((historyList db).map HistoryItem.txTotal).sum % u64
    ∧ (scanDb db).totalHistoryRx = ((historyList db).map HistoryItem.rxTotal).sum % u64 := by
  have hperm := historyList_perm db
  have hnames : ((historyList db).map HistoryItem.name).Perm (mapKeys (historyMap db)) := by
    rw [← historyMap_names]
    exact hperm.map _
  have hrow : ∀ row ∈ historyList db,
      row = { name := row.name
              txTotal := sumTxTotal db row.name % u64
              rxTotal := sumRxTotal db row.name % u64 } := by
    intro row hr
    obtain ⟨e, he, rfl⟩ := List.mem_map.1 (hperm.mem_iff.1 hr)
    have h := historyMap_mem db e.1 e.2 he
    have hn : e.2.name = e.1 := by rw [h]
    rw [hn]
    exact h
  have hmem : ∀ name, name ∈ (historyList db).map HistoryItem.name
      ↔ ∃ p ∈ db.map Prod.snd, cleanName p = name := by
    intro name
    rw [hnames.mem_iff, mem_mapKeys_historyMap, List.mem_map]
  refine ⟨hnames.nodup_iff.2 (nodup_historyMap db), hmem, ?_, ?_, ?_, ?_⟩
  · intro p hp
    obtain ⟨row, hr, hname⟩ := List.mem_map.1 ((hmem (cleanName p)).2 ⟨p, hp, rfl⟩)
    refine ⟨row, hr, hname, ?_⟩
    intro row' hr' hname'
    rw [hrow row hr, hrow row' hr', hname, hname']
  · intro row hr
    have h := hrow row hr
    constructor
    · exact congrArg HistoryItem.txTotal h
    · exact congrArg HistoryItem.rxTotal h
  · rw [(scanDb_totalHistory db).1, ← (historyMap_sums db).1]
    have : ((historyList db).map HistoryItem.txTotal).Perm
        ((historyMap db).map (fun e => e.2.txTotal)) := by
      have := hperm.map HistoryItem.txTotal
      rwa [List.map_map] at this
    rw [this.sum_eq]
  · rw [(scanDb_totalHistory db).2, ← (historyMap_sums db).2]
    have : ((historyList db).map HistoryItem.rxTotal).Perm
        ((historyMap db).map (fun e => e.2.rxTotal)) := by
      have := hperm.map HistoryItem.rxTotal
      rwa [List.map_map] at this
    rw [this.sum_eq]

end Netmon
